import Mathlib

/-!
Shallow embedding of the photometry-extraction pipeline in
`src/further_processing.py` (helped by `src/ObservationData.py`), with the
properties of the design document proved or refuted against it.

Pixel intensities are modelled as rationals (the Python code works on
floating-point arrays; all the properties at stake are exact-arithmetic
properties of the algorithms, not rounding facts).  A 2-D image is a list of
rows.  Fallible operations return `Except PyError`; the constructors of
`PyError` name the `raise` sites (or library failure sites) of the source.
-/

namespace GalaxyPipeline

/-- A 2-D pixel array: a list of rows of rational intensities. -/
abbrev Image := List (List ℚ)

/-- Errors observable from the pipeline.  In the Python source the first two
are `ValueError`s (raised explicitly for an empty selection, and raised inside
`np.dstack` for mismatched shapes); `degenerateImage` is the error the design
document asks for at a zero-intensity centroid — the source never raises it,
the constructor exists so that the design-level claim can be stated. -/
inductive PyError where
  | emptySelection
  | shapeMismatch
  | degenerateImage
deriving DecidableEq

/-- Flattened pixel list, as `image.ravel()` does (row-major order). -/
def ravel (img : Image) : List ℚ := img.flatten

/-- Row and column counts of an image, the `shape` of the numpy array. -/
def shapeOf (img : Image) : Nat × Nat := (img.length, (img.getD 0 []).length)

/-- Rectangularity: the well-formedness condition every numpy 2-D array
satisfies by construction, made explicit for lists of rows. -/
def Rect (img : Image) (h w : Nat) : Prop :=
  img.length = h ∧ ∀ row ∈ img, row.length = w

/-- Maximum of a list of rationals (`0` on the empty list, which the source
never evaluates: `image.max()` on an empty array is an error in numpy). -/
def listMax : List ℚ → ℚ
  | [] => 0
  | [v] => v
  | v :: w :: vs => max v (listMax (w :: vs))

theorem le_listMax {l : List ℚ} {v : ℚ} (hv : v ∈ l) : v ≤ listMax l := by
  induction l with
  | nil => cases hv
  | cons a t ih =>
    cases t with
    | nil =>
      rcases List.mem_cons.mp hv with h | h
      · simp [listMax, h]
      · cases h
    | cons b u =>
      rcases List.mem_cons.mp hv with h | h
      · simp [listMax, h]
      · exact le_trans (ih h) (le_max_right _ _)

theorem listMax_mem {l : List ℚ} (h : l ≠ []) : listMax l ∈ l := by
  induction l with
  | nil => exact absurd rfl h
  | cons a t ih =>
    cases t with
    | nil => simp [listMax]
    | cons b u =>
      have hmem := ih (by simp)
      rcases max_choice a (listMax (b :: u)) with hc | hc
      · simp [listMax, hc]
      · simp only [listMax, hc]
        exact List.mem_cons_of_mem _ hmem

/-- The maximum pixel intensity, `image.max()`. -/
def imageMax (img : Image) : ℚ := listMax (ravel img)

theorem le_imageMax {img : Image} {v : ℚ} (hv : v ∈ ravel img) : v ≤ imageMax img :=
  le_listMax hv

/-- Coordinates (row `r`, running column index) of the pixels of one row whose
intensity strictly exceeds `thr` — one row's share of `np.where(image > threshold)`. -/
def rowPixelsAbove (thr : ℚ) (r : Nat) : Nat → List ℚ → List (Nat × Nat)
  | _, [] => []
  | c, v :: vs =>
    if thr < v then (r, c) :: rowPixelsAbove thr r (c + 1) vs
    else rowPixelsAbove thr r (c + 1) vs

/-- Coordinates of all pixels of the image strictly above `thr`,
`np.where(image > threshold)` in row-major order. -/
def pixelsAbove (thr : ℚ) : Nat → Image → List (Nat × Nat)
  | _, [] => []
  | r, row :: rows => rowPixelsAbove thr r 0 row ++ pixelsAbove thr (r + 1) rows

theorem rowPixelsAbove_anti {t1 t2 : ℚ} (h12 : t1 ≤ t2) (r : Nat) :
    ∀ (c : Nat) (row : List ℚ) (p : Nat × Nat),
      p ∈ rowPixelsAbove t2 r c row → p ∈ rowPixelsAbove t1 r c row := by
  intro c row
  induction row generalizing c with
  | nil => intro p hp; cases hp
  | cons v vs ih =>
    intro p hp
    by_cases hv2 : t2 < v
    · have hv1 : t1 < v := lt_of_le_of_lt h12 hv2
      simp only [rowPixelsAbove, if_pos hv2] at hp
      simp only [rowPixelsAbove, if_pos hv1]
      rcases List.mem_cons.mp hp with h | h
      · exact List.mem_cons.mpr (Or.inl h)
      · exact List.mem_cons.mpr (Or.inr (ih _ p h))
    · simp only [rowPixelsAbove, if_neg hv2] at hp
      by_cases hv1 : t1 < v
      · simp only [rowPixelsAbove, if_pos hv1]
        exact List.mem_cons_of_mem _ (ih _ p hp)
      · simpa only [rowPixelsAbove, if_neg hv1] using ih _ p hp

theorem pixelsAbove_anti {t1 t2 : ℚ} (h12 : t1 ≤ t2) :
    ∀ (r : Nat) (img : Image) (p : Nat × Nat),
      p ∈ pixelsAbove t2 r img → p ∈ pixelsAbove t1 r img := by
  intro r img
  induction img generalizing r with
  | nil => intro p hp; cases hp
  | cons row rows ih =>
    intro p hp
    simp only [pixelsAbove, List.mem_append] at hp ⊢
    rcases hp with h | h
    · exact Or.inl (rowPixelsAbove_anti h12 r 0 row p h)
    · exact Or.inr (ih _ p h)

theorem rowPixelsAbove_eq_nil {thr : ℚ} {row : List ℚ}
    (hall : ∀ v ∈ row, v ≤ thr) (r c : Nat) :
    rowPixelsAbove thr r c row = [] := by
  induction row generalizing c with
  | nil => rfl
  | cons v vs ih =>
    have hv : ¬ thr < v := not_lt.mpr (hall v (by simp))
    simp only [rowPixelsAbove, if_neg hv]
    exact ih (fun w hw => hall w (List.mem_cons_of_mem _ hw)) _

theorem pixelsAbove_eq_nil {thr : ℚ} {img : Image}
    (hall : ∀ v ∈ ravel img, v ≤ thr) (r : Nat) :
    pixelsAbove thr r img = [] := by
  induction img generalizing r with
  | nil => rfl
  | cons row rows ih =>
    simp only [pixelsAbove]
    rw [rowPixelsAbove_eq_nil, ih, List.append_nil]
    · intro v hv
      exact hall v (by simp [ravel, List.mem_flatten] at hv ⊢; exact Or.inr hv)
    · intro v hv
      exact hall v (by simp [ravel, List.mem_flatten]; exact Or.inl hv)

/-- Squared Euclidean distance from `center = (row, col)` to the pixel at
coordinates `p = (y, x)`; the source computes
`np.sqrt((x - center[1])**2 + (y - center[0])**2)`. -/
def distSq (center : ℚ × ℚ) (p : Nat × Nat) : ℚ :=
  ((p.2 : ℚ) - center.2) ^ 2 + ((p.1 : ℚ) - center.1) ^ 2

theorem distSq_nonneg (center : ℚ × ℚ) (p : Nat × Nat) : 0 ≤ distSq center p :=
  add_nonneg (sq_nonneg _) (sq_nonneg _)

/-- The square of `estimate_radius`: the maximum squared distance from the
center to a pixel whose intensity strictly exceeds
`image.max() * threshold_frac`, and `0` when no pixel does (the source's
fallback `return 0.0`).  The source returns the square root of this value;
`Real.sqrt` is strictly monotone on nonnegatives and sends `0` to `0`, so
order and zero-ness of the radius are settled on the squares. -/
def estimate_radius_sq (image : Image) (center : ℚ × ℚ) (threshold_frac : ℚ) : ℚ :=
  let threshold := imageMax image * threshold_frac
  let pts := pixelsAbove threshold 0 image
  if pts = [] then 0 else listMax (pts.map (distSq center))

theorem estimate_radius_sq_nonneg (image : Image) (center : ℚ × ℚ) (t : ℚ) :
    0 ≤ estimate_radius_sq image center t := by
  unfold estimate_radius_sq
  by_cases hp : pixelsAbove (imageMax image * t) 0 image = []
  · simp [hp]
  · simp only [if_neg hp]
    have hmem := listMax_mem (l := (pixelsAbove (imageMax image * t) 0 image).map (distSq center))
      (by simpa using hp)
    rcases List.mem_map.mp hmem with ⟨p, _, hp2⟩
    rw [← hp2]
    exact distSq_nonneg center p

/-- C2, counterexample: the claimed monotonicity
`t1 ≤ t2 → radius(image, center, t2) ≤ radius(image, center, t1)` fails on
the image `[[-1, -2]]` (all-negative, so `image.max()` is negative and
multiplying by a larger fraction lowers the threshold): at center `(0, 1)`,
`estimate_radius` gives `0.0` for fraction `1` but `1.0` for fraction `2`. -/
theorem radius_monotone_counterexample :
    ((1 : ℚ) ≤ 2) ∧
      ¬ estimate_radius_sq [[-1, -2]] (0, 1) 2 ≤ estimate_radius_sq [[-1, -2]] (0, 1) 1 := by
  constructor
  · norm_num
  · norm_num [estimate_radius_sq, pixelsAbove, rowPixelsAbove, imageMax, ravel, listMax, distSq]

/-- C2 (amended): for every image whose maximum pixel intensity is
nonnegative, every center and all threshold fractions `t1 ≤ t2`, the radial
extent estimate is non-increasing in the threshold fraction:
`radius(image, center, t2) ≤ radius(image, center, t1)` (stated on the squared
radii; the square root is monotone). -/
theorem radius_antitone_in_threshold (image : Image) (center : ℚ × ℚ) (t1 t2 : ℚ)
    (hmax : 0 ≤ imageMax image) (h12 : t1 ≤ t2) :
    estimate_radius_sq image center t2 ≤ estimate_radius_sq image center t1 := by
  have hthr : imageMax image * t1 ≤ imageMax image * t2 :=
    mul_le_mul_of_nonneg_left h12 hmax
  by_cases h2 : pixelsAbove (imageMax image * t2) 0 image = []
  · have e2 : estimate_radius_sq image center t2 = 0 := by
      unfold estimate_radius_sq
      simp [h2]
    rw [e2]
    exact estimate_radius_sq_nonneg image center t1
  · have e2 : estimate_radius_sq image center t2
        = listMax ((pixelsAbove (imageMax image * t2) 0 image).map (distSq center)) := by
      unfold estimate_radius_sq
      simp only [if_neg h2]
    have hmemmax := listMax_mem
      (l := (pixelsAbove (imageMax image * t2) 0 image).map (distSq center))
      (by simpa using h2)
    rcases List.mem_map.mp hmemmax with ⟨p, hpP2, hpd⟩
    have hpP1 : p ∈ pixelsAbove (imageMax image * t1) 0 image :=
      pixelsAbove_anti hthr 0 image p hpP2
    have h1 : pixelsAbove (imageMax image * t1) 0 image ≠ [] := List.ne_nil_of_mem hpP1
    have e1 : estimate_radius_sq image center t1
        = listMax ((pixelsAbove (imageMax image * t1) 0 image).map (distSq center)) := by
      unfold estimate_radius_sq
      simp only [if_neg h1]
    rw [e1, e2, ← hpd]
    exact le_listMax (List.mem_map_of_mem _ hpP1)

/-- Witness for `radius_antitone_in_threshold` at a concrete image. -/
theorem radius_antitone_in_threshold_witness :
    ((0 : ℚ) ≤ imageMax [[0, 3], [1, 2]]) ∧ ((1 : ℚ) / 4 ≤ 1 / 2) ∧
      estimate_radius_sq [[0, 3], [1, 2]] (0, 0) (1 / 2) ≤
        estimate_radius_sq [[0, 3], [1, 2]] (0, 0) (1 / 4) :=
  ⟨by norm_num [imageMax, ravel, listMax], by norm_num,
    radius_antitone_in_threshold [[0, 3], [1, 2]] (0, 0) (1 / 4) (1 / 2)
      (by norm_num [imageMax, ravel, listMax]) (by norm_num)⟩

/-- C7, counterexample: with the all-negative image `[[-1], [-1]]` the
threshold `image.max() * 2 = -2` sits below every pixel, so at center `(0, 0)`
and fraction `2 > 1` the radius is `1.0`, not the claimed `0.0`. -/
theorem radius_high_threshold_counterexample :
    ((1 : ℚ) < 2) ∧ estimate_radius_sq [[-1], [-1]] (0, 0) 2 ≠ 0 := by
  constructor
  · norm_num
  · norm_num [estimate_radius_sq, pixelsAbove, rowPixelsAbove, imageMax, ravel, listMax, distSq]
    decide

/-- C7 (amended): for every image whose maximum pixel intensity is
nonnegative, every center and every threshold fraction exceeding `1`, the
radial extent estimate returns exactly `0.0` (no pixel exceeds
`max(image) * thresholdFrac`; stated on the squared radius, whose square root
is also `0`). -/
theorem radius_zero_above_one_threshold (image : Image) (center : ℚ × ℚ) (t : ℚ)
    (hmax : 0 ≤ imageMax image) (ht : 1 < t) :
    estimate_radius_sq image center t = 0 := by
  have hthr : imageMax image ≤ imageMax image * t :=
    le_mul_of_one_le_right hmax (le_of_lt ht)
  have hnil : pixelsAbove (imageMax image * t) 0 image = [] :=
    pixelsAbove_eq_nil (fun v hv => le_trans (le_imageMax hv) hthr) 0
  unfold estimate_radius_sq
  simp [hnil]

/-- Witness for `radius_zero_above_one_threshold` at a concrete image. -/
theorem radius_zero_above_one_threshold_witness :
    ((0 : ℚ) ≤ imageMax [[5]]) ∧ ((1 : ℚ) < 2) ∧
      estimate_radius_sq [[5]] (0, 0) 2 = 0 :=
  ⟨by norm_num [imageMax, ravel, listMax], by norm_num,
    radius_zero_above_one_threshold [[5]] (0, 0) 2
      (by norm_num [imageMax, ravel, listMax]) (by norm_num)⟩

/-- Median of a list of rationals as `np.median` computes it: sort, take the
middle element for odd length, the mean of the two middle elements for even
length.  (`np.median` of an empty array is never evaluated by the source:
aggregation requires a non-empty selection.) -/
def npMedian (l : List ℚ) : ℚ :=
  let s := List.insertionSort (· ≤ ·) l
  if l.length % 2 = 1 then s.getD (l.length / 2) 0
  else (s.getD (l.length / 2 - 1) 0 + s.getD (l.length / 2) 0) / 2

theorem npMedian_perm {l1 l2 : List ℚ} (h : l1.Perm l2) : npMedian l1 = npMedian l2 := by
  have hs : List.insertionSort (· ≤ ·) l1 = List.insertionSort (· ≤ ·) l2 :=
    List.eq_of_perm_of_sorted
      ((List.perm_insertionSort _ l1).trans (h.trans (List.perm_insertionSort _ l2).symm))
      (List.sorted_insertionSort _ l1) (List.sorted_insertionSort _ l2)
  unfold npMedian
  rw [hs, h.length_eq]

/-- Per-pixel median of a stack of images:
`np.median(np.dstack([...]), axis=2)`.  The first image provides the pixel
grid (all contributing images have the same shape by the time `np.dstack`
succeeds); each output pixel is the median of that pixel across the stack. -/
def median_combine (imgs : List Image) : Image :=
  match imgs with
  | [] => []
  | im0 :: _ =>
      (List.range im0.length).map fun r =>
        (List.range ((im0.getD r []).length)).map fun c =>
          npMedian (imgs.map fun im => (im.getD r []).getD c 0)

theorem Rect.length_eq {img : Image} {h w : Nat} (hr : Rect img h w) : img.length = h :=
  hr.1

theorem Rect.row_length {img : Image} {h w : Nat} (hr : Rect img h w) {r : Nat}
    (hlt : r < h) : (img.getD r []).length = w := by
  have hn : r < img.length := by rw [hr.1]; exact hlt
  rw [List.getD_eq_getElem?_getD, List.getElem?_eq_getElem hn]
  exact hr.2 _ (List.getElem_mem hn)

/-- C4: per-pixel median aggregation of a non-empty stack of equal-shaped
images is invariant under permutation of the input order. -/
theorem median_combine_perm_invariant (imgs1 imgs2 : List Image) (h w : Nat)
    (hne : imgs1 ≠ []) (hrect : ∀ im ∈ imgs1, Rect im h w)
    (hperm : imgs1.Perm imgs2) :
    median_combine imgs1 = median_combine imgs2 := by
  cases imgs1 with
  | nil => exact absurd rfl hne
  | cons a t1 =>
    cases imgs2 with
    | nil => exact absurd hperm.eq_nil (by simp)
    | cons b t2 =>
      have ha : Rect a h w := hrect a (by simp)
      have hb : Rect b h w := hrect b (hperm.mem_iff.mpr (by simp))
      simp only [median_combine]
      rw [ha.length_eq, hb.length_eq]
      apply List.map_congr_left
      intro r hr
      have hrlt : r < h := List.mem_range.mp hr
      rw [ha.row_length hrlt, hb.row_length hrlt]
      apply List.map_congr_left
      intro c _
      exact npMedian_perm (hperm.map _)

/-- Witness for `median_combine_perm_invariant` on three 1-by-2 frames. -/
theorem median_combine_perm_invariant_witness :
    (([[[1, 2]], [[3, 4]], [[5, 6]]] : List Image) ≠ []) ∧
      (∀ im ∈ ([[[1, 2]], [[3, 4]], [[5, 6]]] : List Image), Rect im 1 2) ∧
      List.Perm ([[[1, 2]], [[3, 4]], [[5, 6]]] : List Image)
        [[[5, 6]], [[3, 4]], [[1, 2]]] ∧
      median_combine [[[1, 2]], [[3, 4]], [[5, 6]]] =
        median_combine [[[5, 6]], [[3, 4]], [[1, 2]]] :=
  ⟨by simp, by norm_num [Rect], by decide,
    median_combine_perm_invariant [[[1, 2]], [[3, 4]], [[5, 6]]]
      [[[5, 6]], [[3, 4]], [[1, 2]]] 1 2 (by simp) (by norm_num [Rect]) (by decide)⟩

/-- Shape agreement of a stack of images: the condition under which
`np.dstack` succeeds (every array's shape equals the first one's); when it
fails it raises the `ValueError` modelled by `PyError.shapeMismatch`. -/
def sameShape : List Image → Bool
  | [] => true
  | im :: rest => rest.all fun im2 => shapeOf im2 == shapeOf im

theorem sameShape_all {imgs : List Image} (hss : sameShape imgs = true) :
    ∀ x ∈ imgs, ∀ y ∈ imgs, shapeOf x = shapeOf y := by
  cases imgs with
  | nil => intro x hx; cases hx
  | cons im rest =>
    simp only [sameShape, List.all_eq_true] at hss
    intro x hx y hy
    have hx2 : shapeOf x = shapeOf im := by
      rcases List.mem_cons.mp hx with h1 | h1
      · rw [h1]
      · exact beq_iff_eq.mp (hss x h1)
    have hy2 : shapeOf y = shapeOf im := by
      rcases List.mem_cons.mp hy with h1 | h1
      · rw [h1]
      · exact beq_iff_eq.mp (hss y h1)
    rw [hx2, hy2]

/-- A catalog entry of `ObservationData` together with the pixel data that
`fits.getdata` would load for it.  Only the header fields the embedded
functions read are modelled (`OBJECT`, `DATE-OBS`, `EXP-TIME` and `JD` are
never consulted by the aggregation code). -/
structure Frame where
  FILENAME : String
  FILTER : String
  IMAGETYP : String
  data : Image
deriving DecidableEq

/-- The pandas query
`FILTER == "band" and IMAGETYP == "LIGHT"` of `combine_band_images`:
exact, case-sensitive string equality on both header fields. -/
def select_band_frames (frames : List Frame) (band : String) : List Frame :=
  frames.filter fun f => f.FILTER == band && f.IMAGETYP == "LIGHT"

/-- `combine_band_images`: select LIGHT frames of the band from the catalog,
fail on an empty selection (`raise ValueError`), stack (`np.dstack`, which
fails on mismatched shapes) and median-combine. -/
def combine_band_images (frames : List Frame) (band : String) : Except PyError Image :=
  let band_files := select_band_frames frames band
  if band_files.isEmpty then Except.error PyError.emptySelection
  else if sameShape (band_files.map Frame.data) then
    Except.ok (median_combine (band_files.map Frame.data))
  else Except.error PyError.shapeMismatch

/-- Python's `str.upper()` on the character list of a string (ASCII case
mapping, which is all the header values and band names at stake use). -/
def pyUpper (s : String) : String := ⟨s.data.map Char.toUpper⟩

/-- Python's `str.lower()` on the character list of a string. -/
def pyLower (s : String) : String := ⟨s.data.map Char.toLower⟩

/-- Python's `str.strip()`: drop whitespace from both ends. -/
def pyStrip (s : String) : String :=
  ⟨((s.data.dropWhile Char.isWhitespace).reverse.dropWhile Char.isWhitespace).reverse⟩

/-- Python's `str.endswith(suffix)`. -/
def pyEndsWith (s suffix : String) : Bool := suffix.data.isSuffixOf s.data

/-- A raw FITS file on disk as `temp_combine_raw_band_images` sees it: its
file name and the primary header fields the function reads, plus its pixel
data.  A missing header key is modelled by the empty string, the default of
`header.get(..., "")` in the source. -/
structure RawFile where
  FILENAME : String
  IMAGETYP : String
  FILTER : String
  data : Image
deriving DecidableEq

/-- The selection loop of `temp_combine_raw_band_images`: keep files with a
(case-insensitive) `.fits` extension whose `IMAGETYP`, stripped and
upper-cased, is `LIGHT` and whose `FILTER`, stripped and upper-cased, equals
the upper-cased requested band. -/
def select_raw_frames (files : List RawFile) (band : String) : List RawFile :=
  files.filter fun f =>
    pyEndsWith (pyLower f.FILENAME) ".fits" &&
      pyUpper (pyStrip f.IMAGETYP) == "LIGHT" && pyUpper (pyStrip f.FILTER) == pyUpper band

/-- `temp_combine_raw_band_images`: select matching raw frames, fail on an
empty selection (`raise ValueError`), stack (`np.dstack`) and
median-combine. -/
def temp_combine_raw_band_images (files : List RawFile) (band : String) :
    Except PyError Image :=
  let stacked := select_raw_frames files band
  if stacked.isEmpty then Except.error PyError.emptySelection
  else if sameShape (stacked.map RawFile.data) then
    Except.ok (median_combine (stacked.map RawFile.data))
  else Except.error PyError.shapeMismatch

/-- C3: whenever the band/acquisition-type selection is empty, both
aggregation operations fail with the caller-visible typed error raised for an
empty selection (the explicit `ValueError` of the source), rather than
crashing or returning a value. -/
theorem empty_selection_raises (frames : List Frame) (files : List RawFile) (band : String) :
    (select_band_frames frames band = [] →
      combine_band_images frames band = Except.error PyError.emptySelection) ∧
    (select_raw_frames files band = [] →
      temp_combine_raw_band_images files band = Except.error PyError.emptySelection) := by
  constructor
  · intro hsel
    unfold combine_band_images
    simp [hsel]
  · intro hsel
    unfold temp_combine_raw_band_images
    simp [hsel]

/-- Witness for `empty_selection_raises` on an empty catalog and directory. -/
theorem empty_selection_raises_witness :
    combine_band_images [] "R" = Except.error PyError.emptySelection ∧
      temp_combine_raw_band_images [] "R" = Except.error PyError.emptySelection :=
  ⟨(empty_selection_raises [] [] "R").1 rfl, (empty_selection_raises [] [] "R").2 rfl⟩

/-- C5: if two selected frames have different spatial dimensions, aggregation
fails with the typed shape-mismatch error (the `ValueError` that
`np.dstack` raises before any median is computed). -/
theorem shape_mismatch_raises (frames : List Frame) (band : String) (a b : Frame)
    (ha : a ∈ select_band_frames frames band) (hb : b ∈ select_band_frames frames band)
    (hab : shapeOf a.data ≠ shapeOf b.data) :
    combine_band_images frames band = Except.error PyError.shapeMismatch := by
  have hne : select_band_frames frames band ≠ [] := List.ne_nil_of_mem ha
  have hempty : (select_band_frames frames band).isEmpty = false := by
    cases hsel : select_band_frames frames band with
    | nil => exact absurd hsel hne
    | cons x xs => rfl
  cases hsb : sameShape ((select_band_frames frames band).map Frame.data) with
  | true =>
      exact absurd
        (sameShape_all hsb a.data (List.mem_map_of_mem _ ha) b.data
          (List.mem_map_of_mem _ hb)) hab
  | false =>
      unfold combine_band_images
      simp [hempty, hsb]

/-- Witness for `shape_mismatch_raises`: a 1-by-1 and a 1-by-2 LIGHT frame. -/
theorem shape_mismatch_raises_witness :
    (⟨"a.fits", "R", "LIGHT", [[1]]⟩ : Frame) ∈
        select_band_frames [⟨"a.fits", "R", "LIGHT", [[1]]⟩,
          ⟨"b.fits", "R", "LIGHT", [[1, 2]]⟩] "R" ∧
      (⟨"b.fits", "R", "LIGHT", [[1, 2]]⟩ : Frame) ∈
        select_band_frames [⟨"a.fits", "R", "LIGHT", [[1]]⟩,
          ⟨"b.fits", "R", "LIGHT", [[1, 2]]⟩] "R" ∧
      shapeOf ([[1]] : Image) ≠ shapeOf ([[1, 2]] : Image) ∧
      combine_band_images [⟨"a.fits", "R", "LIGHT", [[1]]⟩,
          ⟨"b.fits", "R", "LIGHT", [[1, 2]]⟩] "R" = Except.error PyError.shapeMismatch :=
  ⟨by decide, by decide, by decide,
    shape_mismatch_raises _ "R" ⟨"a.fits", "R", "LIGHT", [[1]]⟩
      ⟨"b.fits", "R", "LIGHT", [[1, 2]]⟩ (by decide) (by decide) (by decide)⟩

/-- C8, counterexample: the catalog-based selection of `combine_band_images`
is case-sensitive (a pandas equality query): the bands `"R"` and `"r"` differ
only in letter case yet select different frame sets from a catalog holding a
single `FILTER = "R"` LIGHT frame. -/
theorem band_selection_case_sensitive_counterexample :
    (pyLower "R" = pyLower "r") ∧
      select_band_frames [⟨"f1.fits", "R", "LIGHT", [[1]]⟩] "R" ≠
        select_band_frames [⟨"f1.fits", "R", "LIGHT", [[1]]⟩] "r" := by
  constructor
  · decide
  · decide

/-- C8 (amended): the raw-directory selection of
`temp_combine_raw_band_images` is case-insensitive in the requested band (both
sides are upper-cased before comparison), so two requests whose bands agree up
to case select the same files; the catalog-based `combine_band_images`,
however, compares the band case-sensitively. -/
theorem raw_selection_case_insensitive (files : List RawFile) (b1 b2 : String)
    (hb : pyUpper b1 = pyUpper b2) :
    select_raw_frames files b1 = select_raw_frames files b2 := by
  unfold select_raw_frames
  rw [hb]

/-- Witness for `raw_selection_case_insensitive` at bands `"r"` and `"R"`. -/
theorem raw_selection_case_insensitive_witness :
    (pyUpper "r" = pyUpper "R") ∧
      select_raw_frames [⟨"a.fits", "LIGHT", "R", [[1]]⟩] "r" =
        select_raw_frames [⟨"a.fits", "LIGHT", "R", [[1]]⟩] "R" :=
  ⟨by decide, raw_selection_case_insensitive [⟨"a.fits", "LIGHT", "R", [[1]]⟩] "r" "R" (by decide)⟩

/-- One comparison step of the mode scan: keep the current candidate unless
the next value is strictly more frequent in `l`. -/
def modeStep (l : List ℚ) (best v : ℚ) : ℚ := if l.count best < l.count v then v else best

/-- `scipy.stats.mode(...).mode` on a flat list of values: the most frequent
value, and the smallest such value when several are tied (scipy's documented
tie-break, which the design document requires for reproducibility).  Scanning
the sorted list in ascending order and replacing the candidate only on a
strictly larger count realizes exactly that choice. -/
def scipy_mode (l : List ℚ) : ℚ :=
  match List.insertionSort (· ≤ ·) l with
  | [] => 0
  | v :: vs => vs.foldl (modeStep l) v

theorem count_map_add (l : List ℚ) (c v : ℚ) :
    (l.map (· + c)).count (v + c) = l.count v := by
  induction l with
  | nil => rfl
  | cons a t ih =>
    simp only [List.map_cons, List.count_cons, ih, beq_iff_eq, add_left_inj]

theorem insertionSort_map_add (l : List ℚ) (c : ℚ) :
    List.insertionSort (· ≤ ·) (l.map (· + c)) =
      (List.insertionSort (· ≤ ·) l).map (· + c) :=
  List.eq_of_perm_of_sorted
    ((List.perm_insertionSort _ _).trans ((List.perm_insertionSort _ l).map _).symm)
    (List.sorted_insertionSort _ _)
    (List.Pairwise.map _ (fun _ _ hab => add_le_add_right hab c)
      (List.sorted_insertionSort _ l))

theorem modeStep_map_add (l : List ℚ) (c v w : ℚ) :
    modeStep (l.map (· + c)) (v + c) (w + c) = modeStep l v w + c := by
  unfold modeStep
  rw [count_map_add, count_map_add]
  by_cases hlt : l.count v < l.count w
  · simp [hlt]
  · simp [hlt]

theorem foldl_modeStep_map_add (l : List ℚ) (c : ℚ) :
    ∀ (vs : List ℚ) (v : ℚ),
      (vs.map (· + c)).foldl (modeStep (l.map (· + c))) (v + c) =
        vs.foldl (modeStep l) v + c := by
  intro vs
  induction vs with
  | nil => intro v; rfl
  | cons w ws ih =>
    intro v
    simp only [List.map_cons, List.foldl_cons]
    rw [modeStep_map_add, ih]

/-- Shift-equivariance of the mode: adding a constant to every value shifts
the smallest most-frequent value by the same constant. -/
theorem scipy_mode_map_add (l : List ℚ) (c : ℚ) (hne : l ≠ []) :
    scipy_mode (l.map (· + c)) = scipy_mode l + c := by
  unfold scipy_mode
  rw [insertionSort_map_add]
  cases hs : List.insertionSort (· ≤ ·) l with
  | nil =>
    have hp := List.perm_insertionSort (· ≤ ·) l
    rw [hs] at hp
    exact absurd hp.symm.eq_nil hne
  | cons v vs =>
    simp only [List.map_cons]
    exact foldl_modeStep_map_add l c vs v

theorem foldl_modeStep_const (l : List ℚ) (c : ℚ) :
    ∀ vs : List ℚ, (∀ w ∈ vs, w = c) → vs.foldl (modeStep l) c = c := by
  intro vs
  induction vs with
  | nil => intro _; rfl
  | cons w ws ih =>
    intro hall
    have hw : w = c := hall w (by simp)
    have hstep : modeStep l c c = c := by unfold modeStep; simp
    simp only [List.foldl_cons, hw, hstep]
    exact ih fun x hx => hall x (List.mem_cons_of_mem _ hx)

theorem scipy_mode_const {l : List ℚ} {c : ℚ} (hne : l ≠ []) (hall : ∀ v ∈ l, v = c) :
    scipy_mode l = c := by
  unfold scipy_mode
  cases hs : List.insertionSort (· ≤ ·) l with
  | nil =>
    have hp := List.perm_insertionSort (· ≤ ·) l
    rw [hs] at hp
    exact absurd hp.symm.eq_nil hne
  | cons v vs =>
    have hperm := List.perm_insertionSort (· ≤ ·) l
    rw [hs] at hperm
    have hv : v = c := hall v (hperm.subset (by simp))
    have hvs : ∀ w ∈ vs, w = c := fun w hw =>
      hall w (hperm.subset (List.mem_cons_of_mem _ hw))
    rw [hv]
    exact foldl_modeStep_const l c vs hvs

/-- The dynamic shape of what the background normalizer hands back to its
caller.  The source's `return image - sky_mode` produces a bare array
(`imageOnly`); the design contract `normalize(image) -> (correctedImage,
skyLevel)` instead promises the pair (`imageWithSky`).  Carrying both shapes
in one type lets the contract be compared with the code's actual result. -/
inductive NormalizeResult where
  | imageOnly (image : Image)
  | imageWithSky (image : Image) (sky : ℚ)
deriving DecidableEq

/-- The local `sky_mode = mode(image.ravel(), axis=None, keepdims=False).mode`
of `subtract_sky_background`. -/
def sky_level (image : Image) : ℚ := scipy_mode (ravel image)

/-- The array `image - sky_mode` (elementwise subtraction of the scalar). -/
def corrected_image (image : Image) : Image :=
  image.map fun row => row.map fun v => v - sky_level image

/-- `subtract_sky_background`: estimate the sky as the mode of the flattened
image and return the corrected array — only the array. -/
def subtract_sky_background (image : Image) : NormalizeResult :=
  NormalizeResult.imageOnly (corrected_image image)

theorem ravel_map (img : Image) (f : ℚ → ℚ) :
    ravel (img.map fun row => row.map f) = (ravel img).map f := by
  induction img with
  | nil => rfl
  | cons row rows ih =>
    simp only [ravel, List.map_cons, List.flatten_cons, List.map_append] at ih ⊢
    rw [ih]

/-- C6, counterexample: on the flat image `[[5]]` the claim predicts the
result `(correctedImage, skyLevel) = ([[0]], 5)`; the function instead
returns only the corrected array, never a pair. -/
theorem normalize_returns_image_only_counterexample :
    subtract_sky_background [[5]] ≠ NormalizeResult.imageWithSky [[0]] 5 :=
  fun hcon => NormalizeResult.noConfusion hcon

/-- C6 (amended): for every perfectly flat image of constant value `c` the
background normalizer estimates sky level `c` and produces an all-zero
corrected image; the function returns only the corrected image (the scalar
sky level is internal, not part of its result). -/
theorem flat_image_normalize (image : Image) (c : ℚ) (hne : ravel image ≠ [])
    (hflat : ∀ v ∈ ravel image, v = c) :
    sky_level image = c ∧ (∀ v ∈ ravel (corrected_image image), v = 0) ∧
      subtract_sky_background image = NormalizeResult.imageOnly (corrected_image image) := by
  have hsky : sky_level image = c := scipy_mode_const hne hflat
  refine ⟨hsky, ?_, rfl⟩
  intro v hv
  unfold corrected_image at hv
  rw [ravel_map] at hv
  rcases List.mem_map.mp hv with ⟨w, hw, hvw⟩
  rw [← hvw, hflat w hw, hsky]
  ring

/-- Witness for `flat_image_normalize` on the flat image `[[3, 3]]`. -/
theorem flat_image_normalize_witness :
    (ravel [[3, 3]] ≠ []) ∧ (∀ v ∈ ravel [[3, 3]], v = 3) ∧
      sky_level [[3, 3]] = 3 ∧ (∀ v ∈ ravel (corrected_image [[3, 3]]), v = 0) ∧
      subtract_sky_background [[3, 3]] =
        NormalizeResult.imageOnly (corrected_image [[3, 3]]) := by
  have h := flat_image_normalize [[3, 3]] 3 (by simp [ravel]) (by simp [ravel])
  exact ⟨by simp [ravel], by simp [ravel], h.1, h.2.1, h.2.2⟩

/-- C10: under exact arithmetic, subtracting the estimated mode shifts every
pixel value by the same constant, preserving all multiplicities and the value
order, so re-estimating the sky level on the corrected image yields exactly
`0`. -/
theorem corrected_image_mode_zero (image : Image) (hne : ravel image ≠ []) :
    sky_level (corrected_image image) = 0 := by
  have hmap : corrected_image image
      = image.map fun row => row.map fun v => v + (-sky_level image) := by
    unfold corrected_image
    simp [sub_eq_add_neg]
  have hrw : sky_level (corrected_image image)
      = scipy_mode ((ravel image).map fun v => v + (-sky_level image)) := by
    rw [hmap]
    unfold sky_level
    rw [ravel_map]
  rw [hrw, scipy_mode_map_add (ravel image) (-sky_level image) hne]
  simp [sky_level]

/-- Witness for `corrected_image_mode_zero` on a small non-flat image. -/
theorem corrected_image_mode_zero_witness :
    (ravel [[1, 2, 2]] ≠ []) ∧ sky_level (corrected_image [[1, 2, 2]]) = 0 :=
  ⟨by simp [ravel], corrected_image_mode_zero [[1, 2, 2]] (by simp [ravel])⟩

/-- Total pixel intensity, the normalizer `image.sum()` inside
`scipy.ndimage.center_of_mass`. -/
def totalIntensity (image : Image) : ℚ := (ravel image).sum

/-- Sum of intensity times row index. -/
def weightedRowSum (image : Image) : ℚ :=
  (image.enum.map fun p => (p.1 : ℚ) * p.2.sum).sum

/-- Sum of intensity times column index. -/
def weightedColSum (image : Image) : ℚ :=
  (image.map fun row => ((row.enum.map fun q => (q.1 : ℚ) * q.2).sum)).sum

/-- `estimate_galaxy_center`, i.e. `scipy.ndimage.center_of_mass(image)`: the
brightness-weighted centroid `(Σ v*r / Σ v, Σ v*c / Σ v)`.  The function
never raises: when the total intensity is zero the floating-point divisions
silently produce non-finite (NaN) coordinates, modelled by `none`; the
`Except` layer records that the code has no error path here. -/
def estimate_galaxy_center (image : Image) : Except PyError (Option (ℚ × ℚ)) :=
  Except.ok <|
    if totalIntensity image = 0 then none
    else some (weightedRowSum image / totalIntensity image,
      weightedColSum image / totalIntensity image)

/-- C1, counterexample: on the all-zero image the centroid operation returns
successfully with undefined (NaN) coordinates; it raises nothing, in
particular not the DegenerateImageError the design promises. -/
theorem centroid_zero_image_counterexample :
    estimate_galaxy_center [[0]] = Except.ok none ∧
      estimate_galaxy_center [[0]] ≠ Except.error PyError.degenerateImage := by
  have h0 : totalIntensity [[0]] = 0 := by norm_num [totalIntensity, ravel]
  constructor
  · simp [estimate_galaxy_center, h0]
  · simp [estimate_galaxy_center, h0]

/-- C1 (amended): for every image of zero total intensity the centroid
operation returns successfully with undefined (NaN) coordinates — the
division by zero is silent — instead of failing with a typed error. -/
theorem centroid_zero_total_returns_nan (image : Image)
    (h0 : totalIntensity image = 0) :
    estimate_galaxy_center image = Except.ok none := by
  simp [estimate_galaxy_center, h0]

/-- Witness for `centroid_zero_total_returns_nan` on a zero-sum image. -/
theorem centroid_zero_total_returns_nan_witness :
    totalIntensity [[1, -1]] = 0 ∧ estimate_galaxy_center [[1, -1]] = Except.ok none :=
  ⟨by norm_num [totalIntensity, ravel],
    centroid_zero_total_returns_nan [[1, -1]] (by norm_num [totalIntensity, ravel])⟩

/-- One ring of the surface-brightness profile: semi-major axis, mean
isophote intensity, and validity flag (false = diverged ring). -/
structure IsophoteRecord where
  sma : ℚ
  intens : ℚ
  valid : Bool
deriving DecidableEq

/-- Modelled from the spec: the ring loop of the isophote fitter
(design section 4.6).  The source delegates the entire fit to
`photutils.isophote.Ellipse.fit_image`, a library outside this repository,
so the loop is modelled from the design document: the semi-major axis
advances additively outward from the seed; `fitRing` abstracts one ring's
bounded iterative fit, returning the mean isophote intensity on convergence
and `none` on divergence; a diverged ring is recorded as an invalid record
(flagged, not omitted); once `failLimit` consecutive failures accumulate the
fit terminates early, returning the profile assembled so far; `n` counts the
remaining rings up to the image boundary. -/
def fit_profile_loop (fitRing : ℚ → Option ℚ) (step : ℚ) (failLimit : Nat) :
    Nat → ℚ → Nat → List IsophoteRecord
  | 0, _, _ => []
  | n + 1, sma, fails =>
    match fitRing sma with
    | some intens =>
        ⟨sma, intens, true⟩ :: fit_profile_loop fitRing step failLimit n (sma + step) 0
    | none =>
        if failLimit ≤ fails + 1 then [⟨sma, 0, false⟩]
        else ⟨sma, 0, false⟩ :: fit_profile_loop fitRing step failLimit n (sma + step) (fails + 1)

/-- Modelled from the spec: `fitProfile` — run the ring loop from the seed
semi-major axis with zero accumulated failures. -/
def fit_ellipses (fitRing : ℚ → Option ℚ) (sma0 step : ℚ)
    (maxRings failLimit : Nat) : List IsophoteRecord :=
  fit_profile_loop fitRing step failLimit maxRings sma0 0

theorem fit_profile_loop_sma_lb (fitRing : ℚ → Option ℚ) (step : ℚ) (failLimit : Nat)
    (hstep : 0 ≤ step) :
    ∀ (n : Nat) (sma : ℚ) (fails : Nat) (it : IsophoteRecord),
      it ∈ fit_profile_loop fitRing step failLimit n sma fails → sma ≤ it.sma := by
  intro n
  induction n with
  | zero => intro sma fails it h; cases h
  | succ m ih =>
    intro sma fails it h
    simp only [fit_profile_loop] at h
    cases hfit : fitRing sma with
    | some i =>
      rw [hfit] at h
      rcases List.mem_cons.mp h with h1 | h1
      · rw [h1]
      · have := ih (sma + step) 0 it h1
        linarith
    | none =>
      rw [hfit] at h
      by_cases hlim : failLimit ≤ fails + 1
      · rw [if_pos hlim] at h
        rw [List.mem_singleton.mp h]
      · rw [if_neg hlim] at h
        rcases List.mem_cons.mp h with h1 | h1
        · rw [h1]
        · have := ih (sma + step) (fails + 1) it h1
          linarith

theorem fit_profile_loop_pairwise (fitRing : ℚ → Option ℚ) (step : ℚ) (failLimit : Nat)
    (hstep : 0 < step) :
    ∀ (n : Nat) (sma : ℚ) (fails : Nat),
      (fit_profile_loop fitRing step failLimit n sma fails).Pairwise
        (fun a b => a.sma < b.sma) := by
  intro n
  induction n with
  | zero => intro sma fails; simp [fit_profile_loop]
  | succ m ih =>
    intro sma fails
    simp only [fit_profile_loop]
    cases hfit : fitRing sma with
    | some i =>
      refine List.Pairwise.cons ?_ (ih (sma + step) 0)
      intro b hb
      have hle := fit_profile_loop_sma_lb fitRing step failLimit (le_of_lt hstep)
        m (sma + step) 0 b hb
      show sma < b.sma
      linarith
    | none =>
      by_cases hlim : failLimit ≤ fails + 1
      · rw [if_pos hlim]
        simp
      · rw [if_neg hlim]
        refine List.Pairwise.cons ?_ (ih (sma + step) (fails + 1))
        intro b hb
        have hle := fit_profile_loop_sma_lb fitRing step failLimit (le_of_lt hstep)
          m (sma + step) (fails + 1) b hb
        show sma < b.sma
        linarith

theorem fit_profile_loop_length_all_none (fitRing : ℚ → Option ℚ) (step : ℚ)
    (failLimit : Nat) (hnone : ∀ s, fitRing s = none) :
    ∀ (n : Nat) (sma : ℚ) (fails : Nat), fails < failLimit →
      (fit_profile_loop fitRing step failLimit n sma fails).length
        = min (failLimit - fails) n := by
  intro n
  induction n with
  | zero => intro sma fails _; simp [fit_profile_loop]
  | succ m ih =>
    intro sma fails hf
    simp only [fit_profile_loop, hnone sma]
    by_cases hlim : failLimit ≤ fails + 1
    · rw [if_pos hlim]
      have h1 : failLimit - fails = 1 := by omega
      simp [h1]
    · rw [if_neg hlim]
      simp only [List.length_cons, ih (sma + step) (fails + 1) (by omega)]
      omega

/-- C9 (modelled from the spec, see `fit_profile_loop`): with a positive
axis step and a positive failure limit, the valid records of the fitted
profile have strictly increasing semi-major axis values; and when every ring
diverges, the consecutive-failure limit terminates the fit early — the loop
returns the profile assembled so far (`min failLimit maxRings` flagged
records) as a value, with no exception channel. -/
theorem fit_profile_increasing_and_bounded (fitRing : ℚ → Option ℚ)
    (sma0 step : ℚ) (maxRings failLimit : Nat) (hstep : 0 < step)
    (hlim : 0 < failLimit) :
    ((fit_ellipses fitRing sma0 step maxRings failLimit).filter
        (fun it => it.valid)).Pairwise (fun a b => a.sma < b.sma) ∧
      ((∀ s, fitRing s = none) →
        (fit_ellipses fitRing sma0 step maxRings failLimit).length
          = min failLimit maxRings) := by
  constructor
  · exact List.Pairwise.filter _
      (fit_profile_loop_pairwise fitRing step failLimit hstep maxRings sma0 0)
  · intro hnone
    have h := fit_profile_loop_length_all_none fitRing step failLimit hnone
      maxRings sma0 0 hlim
    simpa [fit_ellipses] using h

/-- Witness for `fit_profile_increasing_and_bounded` with an always-diverging
ring fit: 5 candidate rings, failure limit 3. -/
theorem fit_profile_increasing_and_bounded_witness :
    ((0 : ℚ) < 1) ∧ (0 < 3) ∧
      ((fit_ellipses (fun _ => none) 1 1 5 3).filter (fun it => it.valid)).Pairwise
        (fun a b => a.sma < b.sma) ∧
      (fit_ellipses (fun _ => none) 1 1 5 3).length = min 3 5 := by
  have h := fit_profile_increasing_and_bounded (fun _ => none) 1 1 5 3
    (by norm_num) (by norm_num)
  exact ⟨by norm_num, by norm_num, h.1, h.2 (fun s => rfl)⟩

end GalaxyPipeline
